import Mathlib

/-!
Verification development for the search/filtering/ranking core of the nelo
task manager (src/utils/searchUtils.js and src/hooks/useElasticSearch.js).

Modelling conventions:
- JS strings are modelled as lists of characters (Str); toLowerCase is
  per-character ASCII lowering (the repository only searches ASCII text).
- JS numbers produced by fuzzyMatch are exact fractions matches/length with
  tiny numerators and denominators; IEEE double division of such values can
  never cross the thresholds 0 and 0.5 used by the code, so the float
  comparisons are modelled by exact cross-multiplied Nat comparisons.
- The term interpolated into the word-boundary regular expression is
  free-form user input; the model interprets the compiled pattern over the
  literal-plus-dot fragment of the regex syntax (a dot is a wildcard, other
  characters match literally under flag i, and the enclosing \b markers
  follow the ECMAScript word-boundary rule over \w = [A-Za-z0-9_]). Terms
  using the remaining regex syntax characters (quantifiers, groups,
  classes, anchors, escapes; some, like a lone parenthesis, make new RegExp
  throw a SyntaxError) are outside the model, and every theorem that
  depends on word matching excludes them.
- The match-function table lookup consults the prototype chain: inherited
  Object.prototype names bypass the substring fallback. The three inherited
  names with an observable boolean outcome are modelled; the inherited
  names whose call throws a TypeError are outside the total model and
  excluded by the theorems about unknown strategy names.
- Array.prototype.sort (ES2019+: stable, and deterministic for consistent
  comparators) is modelled by a stable insertion sort.
-/

/-- A JS string, modelled as its list of characters. -/
abbrev Str := List Char

/-- Helper to write concrete Str values from Lean string literals. -/
def str (s : String) : Str := s.data

/-- Models String.prototype.toLowerCase (ASCII). -/
def jsLower (s : Str) : Str := s.map Char.toLower

/-- Models String.prototype.startsWith: hay starts with needle. -/
def jsStartsWith : Str → Str → Bool
  | _, [] => true
  | [], _ :: _ => false
  | c :: hs, d :: ds => c == d && jsStartsWith hs ds

/-- Models String.prototype.includes: needle occurs contiguously in hay. -/
def jsIncludes (hay needle : Str) : Bool :=
  if jsStartsWith hay needle then true
  else
    match hay with
    | [] => false
    | _ :: hs => jsIncludes hs needle

/-- ECMAScript word character class \w = [A-Za-z0-9_]. -/
def isWordChar (c : Char) : Bool := c.isAlphanum || c == '_'

/-- Word-character test on an optional character; out-of-range positions count
as non-word, as in the regex \b rule. -/
def optWord : Option Char → Bool
  | some c => isWordChar c
  | none => false

/-- Character just before position i of text, if any. -/
def prevChar (text : Str) (i : Nat) : Option Char :=
  if i = 0 then none else text[i - 1]?

/-- ECMAScript \b holds at position i of text iff exactly one of the two
surrounding characters is a word character. -/
def wordBoundary (text : Str) (i : Nat) : Bool :=
  optWord (prevChar text i) != optWord (text[i]?)

/-- The regex syntax characters of ECMAScript patterns. A term containing
any of these changes the compiled pattern: the dot is a wildcard, the
others introduce quantifiers, groups, classes, alternation, anchors or
escapes, and some make new RegExp throw a SyntaxError (for example a lone
opening parenthesis). -/
def regexSpecial (c : Char) : Bool :=
  c = '\\' || c = '^' || c = '$' || c = '.' || c = '*' || c = '+' ||
  c = '?' || c = '(' || c = ')' || c = '[' || c = ']' ||
  c = Char.ofNat 0x7b || c = Char.ofNat 0x7d || c = '|'

/-- A term with no regex syntax characters compiles to a literal pattern. -/
def regexSafe (s : Str) : Bool := s.all (fun c => !regexSpecial c)

/-- One pattern atom of the interpolated term against one text character:
a dot matches every character except a line terminator, any other character
matches case-insensitively (flag i). The model covers exactly the fragment
in which every regex syntax character of the term is a dot; terms using the
remaining syntax characters compile to patterns outside the model or throw,
and the theorems that depend on word matching exclude them. -/
def atomMatch (a c : Char) : Bool :=
  if a = '.' then
    !(c = '\n' || c = '\r' || c = Char.ofNat 0x2028 || c = Char.ofNat 0x2029)
  else Char.toLower a == Char.toLower c

/-- Pointwise atom matching of the whole term against a text segment of the
same length. -/
def seqMatch : Str → Str → Bool
  | [], [] => true
  | [], _ :: _ => false
  | _ :: _, [] => false
  | a :: as, c :: cs => atomMatch a c && seqMatch as cs

/-- The regex \b term \b (with flag i) matches text starting at index i:
the segment of text at i matches the term atom for atom and both ends sit
on word boundaries. -/
def wordMatchAt (text term : Str) (i : Nat) : Bool :=
  decide (i + term.length ≤ text.length) &&
  seqMatch term ((text.drop i).take term.length) &&
  wordBoundary text i && wordBoundary text (i + term.length)

/-- searchUtils.js wordMatch: new RegExp of backslash-b term backslash-b
with flags gi, tested against text. The term is free-form user input
interpolated into the pattern; the model interprets it over the
literal-plus-dot regex fragment. -/
def wordMatch (text term : Str) : Bool :=
  (List.range (text.length + 1)).any (fun i => wordMatchAt text term i)

/-- The literal whole-word predicate in the words of the spec: the term
itself, taken as plain text, occurs in the text case-insensitively, bounded
by word boundaries on both sides. Coincides with wordMatch exactly on
regexSafe terms. -/
def litWordMatchAt (text term : Str) (i : Nat) : Bool :=
  decide (i + term.length ≤ text.length) &&
  decide (jsLower ((text.drop i).take term.length) = jsLower term) &&
  wordBoundary text i && wordBoundary text (i + term.length)

/-- The whole-string form of the literal whole-word predicate. -/
def litWordMatch (text term : Str) : Bool :=
  (List.range (text.length + 1)).any (fun i => litWordMatchAt text term i)

/-- searchUtils.js exactMatch: case-normalized full equality. -/
def exactMatch (text term : Str) : Bool := decide (jsLower text = jsLower term)

/-- searchUtils.js substringMatch: case-normalized containment. -/
def substringMatch (text term : Str) : Bool := jsIncludes (jsLower text) (jsLower term)

/-- searchUtils.js prefixMatch: case-normalized starts-with. -/
def prefixMatch (text term : Str) : Bool := jsStartsWith (jsLower text) (jsLower term)

/-- The numeric score returned by fuzzyMatch, kept as an exact unreduced
fraction num/den (den is always positive for every score the code builds). -/
structure FuzzyScore where
  num : Nat
  den : Nat
deriving DecidableEq, Repr

/-- Models the JS float comparison score > 0.5 (exact for these fractions). -/
def scoreGtHalf (s : FuzzyScore) : Bool := decide (s.den < 2 * s.num)

/-- The character-by-character loop of fuzzyMatch: greedily consume the term
characters in order while scanning text left to right. Returns the number of
matched characters and the unconsumed remainder of the term. -/
def greedy : Str → Str → Nat × Str
  | _, [] => (0, [])
  | [], d :: tm => (0, d :: tm)
  | c :: tx, d :: tm =>
    if c = d then
      let p := greedy tx tm
      (p.1 + 1, p.2)
    else greedy tx (d :: tm)

/-- searchUtils.js fuzzyMatch: 1 on exact equality, 0.9 on substring
containment, 0.8 on whole-word match, else matches/length of text when the
greedy subsequence scan consumes the whole term, else 0. -/
def fuzzyMatch (text term : Str) : FuzzyScore :=
  if jsLower text = jsLower term then ⟨1, 1⟩
  else if jsIncludes (jsLower text) (jsLower term) then ⟨9, 10⟩
  else if wordMatch text term then ⟨4, 5⟩
  else if (greedy (jsLower text) (jsLower term)).2 = [] then
    ⟨(greedy (jsLower text) (jsLower term)).1, (jsLower text).length⟩
  else ⟨0, 1⟩

/-- A JS value as stored in a record field. Dates and nested objects do not
occur in searchable fields; date-valued fields are only consumed through the
environment parameters of SearchEnv below. -/
inductive JsVal where
  | str : Str → JsVal
  | num : Int → JsVal
  | bool : Bool → JsVal
  | null
  | undef
deriving DecidableEq, Repr

/-- A record (task-like object): an association list of fields. JS objects
have no duplicate keys; lookup takes the first occurrence. -/
abbrev Record := List (String × JsVal)

/-- Property access item[key]; a missing key reads as undefined. -/
def getVal (item : Record) (key : String) : JsVal := (item.lookup key).getD JsVal.undef

/-- ECMAScript ToBoolean on the modelled values. -/
def truthy : JsVal → Bool
  | JsVal.str s => decide (s ≠ [])
  | JsVal.num n => decide (n ≠ 0)
  | JsVal.bool b => b
  | JsVal.null => false
  | JsVal.undef => false

/-- ECMAScript strict equality === on the modelled values. -/
def jsStrictEq : JsVal → JsVal → Bool
  | JsVal.str a, JsVal.str b => a == b
  | JsVal.num a, JsVal.num b => a == b
  | JsVal.bool a, JsVal.bool b => a == b
  | JsVal.null, JsVal.null => true
  | JsVal.undef, JsVal.undef => true
  | _, _ => false

/-- The guard value && typeof value === 'string' used by multiFieldSearch and
scoreSearchResult: yields the field string only when it is a non-empty string
(the empty string is falsy). -/
def getStr (item : Record) (key : String) : Option Str :=
  match getVal item key with
  | JsVal.str s => if s = [] then none else some s
  | _ => none

/-- Object spread item with one field set: an existing key keeps its position
and receives the new value, a new key is appended. -/
def setField (item : Record) (key : String) (v : JsVal) : Record :=
  if (item.lookup key).isSome then
    item.map (fun p => if p.1 = key then (p.1, v) else p)
  else item ++ [(key, v)]

/-- The property names the match-function table inherits from
Object.prototype: indexing the object literal with one of these yields a
defined truthy value, so the fallback after the logical-or never fires. -/
def objectProtoKeys : List String :=
  ["constructor", "__proto__", "hasOwnProperty", "isPrototypeOf",
   "propertyIsEnumerable", "toLocaleString", "toString", "valueOf",
   "__defineGetter__", "__defineSetter__", "__lookupGetter__",
   "__lookupSetter__"]

/-- The string-keyed match-function lookup of multiFieldSearch. The five
own keys select the matchers; the fuzzy arm models JS truthiness of the
numeric score (it is never consulted by multiFieldSearch, which handles
matchType fuzzy in a dedicated branch). An inherited Object.prototype name
bypasses the substringMatch fallback: constructor is the Object function
and wrapping any value yields a truthy object; toString called with an
undefined this returns the non-empty tag string for undefined;
isPrototypeOf returns false on a primitive argument. The remaining
inherited names of objectProtoKeys are either not callable or convert an
undefined this, so the program throws a TypeError; a total model cannot
represent the throw, these keys are outside the faithful domain (mapped to
false here) and every theorem about unknown matchType values excludes
them. Only a string that is neither an own key nor an inherited name
reaches the substringMatch fallback. -/
def matchBool (matchType : String) (text term : Str) : Bool :=
  if matchType = "exact" then exactMatch text term
  else if matchType = "substring" then substringMatch text term
  else if matchType = "word" then wordMatch text term
  else if matchType = "fuzzy" then decide (0 < (fuzzyMatch text term).num)
  else if matchType = "prefix" then prefixMatch text term
  else if matchType = "constructor" then true
  else if matchType = "toString" then true
  else if matchType = "isPrototypeOf" then false
  else if matchType ∈ objectProtoKeys then false
  else substringMatch text term

/-- The truthy return value of multiFieldSearch: the first matching field,
with the fuzzy score when matchType is fuzzy. -/
structure FieldHit where
  field : String
  fuzzyScore : Option FuzzyScore
deriving DecidableEq, Repr

/-- The field loop of multiFieldSearch: first field whose non-empty string
value matches; for fuzzy, first field whose score exceeds 0.5. -/
def multiFieldGo (item : Record) (term : Str) (matchType : String) : List String → Option FieldHit
  | [] => none
  | field :: rest =>
    match getStr item field with
    | none => multiFieldGo item term matchType rest
    | some v =>
      if matchType = "fuzzy" then
        if scoreGtHalf (fuzzyMatch v term) then some ⟨field, some (fuzzyMatch v term)⟩
        else multiFieldGo item term matchType rest
      else if matchBool matchType v term then some ⟨field, none⟩
      else multiFieldGo item term matchType rest

/-- searchUtils.js multiFieldSearch: none models the JS return value false. -/
def multiFieldSearch (item : Record) (term : Str) (fields : List String)
    (matchType : String) : Option FieldHit :=
  if term = [] ∨ fields = [] then none
  else multiFieldGo item term matchType fields

/-- The character scan of parseSearchQuery: a double quote flips the
inside-quotes flag and is not emitted; a space outside quotes flushes the
non-empty accumulator; every other character is appended; the final
non-empty accumulator is flushed at end of input. -/
def parseGo : Str → Str → Bool → List Str
  | [], current, _ => if current = [] then [] else [current]
  | c :: rest, current, inQuotes =>
    if c = '"' then parseGo rest current (!inQuotes)
    else if c = ' ' ∧ inQuotes = false then
      if current = [] then parseGo rest [] inQuotes
      else current :: parseGo rest [] inQuotes
    else parseGo rest (current ++ [c]) inQuotes

/-- searchUtils.js parseSearchQuery, including its final filter dropping
empty tokens. -/
def parseSearchQuery (query : Str) : List Str :=
  (parseGo query [] false).filter (fun t => 0 < t.length)

/-- The per-field award accumulation step of the scoreSearchResult loop:
score += 100 / 75 / 50 / 25 by the first applicable tier, fields whose value
is not a non-empty string are skipped. -/
def scoreLoopStep (term : Str) (item : Record) (score : Nat) (field : String) : Nat :=
  match getStr item field with
  | none => score
  | some v =>
    if jsLower v = jsLower term then score + 100
    else if jsStartsWith (jsLower v) (jsLower term) then score + 75
    else if jsIncludes (jsLower v) (jsLower term) then score + 50
    else if wordMatch v term then score + 25
    else score

/-- searchUtils.js scoreSearchResult: 0 for an empty query, else the loop
over searchFields. -/
def scoreSearchResult (item : Record) (term : Str) (searchFields : List String) : Nat :=
  if term = [] then 0
  else searchFields.foldl (scoreLoopStep term item) 0

/-- Stable insertion of x into a list: x is placed before the first element y
with le x y, so earlier-inserted equal elements keep their relative order. -/
def insertSorted (le : α → α → Bool) (x : α) : List α → List α
  | [] => [x]
  | y :: ys => if le x y then x :: y :: ys else y :: insertSorted le x ys

/-- Stable sort modelling Array.prototype.sort with a consistent comparator
(ES2019+ requires sort to be stable; the result is then unique, so any stable
sorting algorithm is a faithful model). -/
def stableSort (le : α → α → Bool) (l : List α) : List α :=
  l.foldr (insertSorted le) []

/-- The _searchScore read by the ranking comparator; in the ranked branch
every element carries the field, the default keeps the function total. -/
def scoreNum (r : Record) : Int :=
  match getVal r "_searchScore" with
  | JsVal.num n => n
  | _ => 0

/-- Ranking comparator (a, b) => b._searchScore - a._searchScore: a stays
before b iff the comparator is not positive. -/
def scoreLe (a b : Record) : Bool := decide (scoreNum b - scoreNum a ≤ 0)

/-- Environment-dependent pieces of the pipeline: JS Date parsing (used by
the dueDate filter and the recent sort) and String.prototype.localeCompare
(used by the name sort) are host-defined; the pipeline is modelled relative
to arbitrary such functions. -/
structure SearchEnv where
  dateStr : JsVal → Str
  dateNum : JsVal → Int
  localeCmp : Str → Str → Int

/-- The title read by the name comparator (a non-string title would throw in
JS; no claim exercises that case, the default keeps the function total). -/
def titleStr (r : Record) : Str :=
  match getVal r "title" with
  | JsVal.str s => s
  | _ => []

/-- Name comparator (a, b) => a.title.localeCompare(b.title). -/
def nameLe (env : SearchEnv) (a b : Record) : Bool :=
  decide (env.localeCmp (titleStr a) (titleStr b) ≤ 0)

/-- Recent comparator (a, b) => new Date(b.createdAt) - new Date(a.createdAt). -/
def recentLe (env : SearchEnv) (a b : Record) : Bool :=
  decide (env.dateNum (getVal b "createdAt") - env.dateNum (getVal a "createdAt") ≤ 0)

/-- A secondary filter object; ftype models the JS field named type. -/
structure SecFilter where
  ftype : String
  value : JsVal
deriving DecidableEq, Repr

/-- One secondary filter applied to one item (useElasticSearch.js lines
95-112): status compares completed strictly when the filter value is not
undefined, priority and dueDate require a truthy filter value, dueDate
compares calendar-date strings, anything else accepts. -/
def filterMatches (env : SearchEnv) (item : Record) (f : SecFilter) : Bool :=
  if f.ftype = "status" ∧ f.value ≠ JsVal.undef then
    jsStrictEq (getVal item "completed") f.value
  else if f.ftype = "priority" ∧ truthy f.value = true then
    jsStrictEq (getVal item "priority") f.value
  else if f.ftype = "dueDate" ∧ truthy f.value = true then
    decide (env.dateStr (getVal item "dueDate") = env.dateStr f.value)
  else true

/-- The text-filter stage of useElasticSearch (lines 77-82): keep the records
for which every parsed token has a truthy multiFieldSearch result. -/
def textFilter (data : List Record) (term : Str) (fields : List String)
    (matchType : String) : List Record :=
  data.filter (fun item =>
    (parseSearchQuery term).all (fun tok => (multiFieldSearch item tok fields matchType).isSome))

/-- The ranking stage (lines 85-91): attach _searchScore to a spread copy of
each surviving record, then sort descending by score. -/
def rankStage (tf : List Record) (term : Str) (fields : List String) : List Record :=
  stableSort scoreLe
    (tf.map (fun item => setField item "_searchScore" (JsVal.num (scoreSearchResult item term fields))))

/-- Steps 3-6 of the evaluation (filter by tokens, optionally rank, apply
secondary filters, apply the sortBy re-sort), before the maxResults cut. -/
def searchPipeline (env : SearchEnv) (data : List Record) (fields : List String)
    (term : Str) (filters : List SecFilter) (matchType : String)
    (rankResults : Bool) (sortBy : String) : List Record :=
  let f1 := if term ≠ [] ∧ fields ≠ [] then
      (if rankResults then rankStage (textFilter data term fields matchType) term fields
       else textFilter data term fields matchType)
    else data
  let f2 := if filters ≠ [] then f1.filter (fun item => filters.all (filterMatches env item)) else f1
  if sortBy = "name" ∧ "title" ∈ fields then stableSort (nameLe env) f2
  else if sortBy = "recent" then stableSort (recentLe env) f2
  else f2

/-- The published search result (the results / resultCount / searchTime /
statistics object of the useMemo). tokensUsed is absent from the
short-circuit branch in JS and modelled there as the empty list. -/
structure EvalResult where
  results : List Record
  resultCount : Nat
  searchTime : Rat
  searched : Bool
  termsCount : Nat
  tokensUsed : List Str
deriving Repr

/-- The useMemo body of useElasticSearch (lines 55-147): short-circuit on an
empty debounced term with no applied filters, otherwise run the pipeline and
cut to maxResults when that option is a truthy number exceeded by the result
length. elapsed stands for the wall-clock time measured by performance.now,
which the code only reports. -/
def evaluate (env : SearchEnv) (data : List Record) (fields : List String)
    (term : Str) (filters : List SecFilter) (matchType : String)
    (rankResults : Bool) (sortBy : String) (maxResults : Option Nat)
    (elapsed : Rat) : EvalResult :=
  if term = [] ∧ filters = [] then
    { results := data, resultCount := data.length, searchTime := 0,
      searched := false, termsCount := 0, tokensUsed := [] }
  else
    let tokens := parseSearchQuery term
    let sorted := searchPipeline env data fields term filters matchType rankResults sortBy
    let final := match maxResults with
      | some k => if k ≠ 0 ∧ k < sorted.length then sorted.take k else sorted
      | none => sorted
    { results := final, resultCount := final.length, searchTime := elapsed,
      searched := true, termsCount := tokens.length, tokensUsed := tokens }

/-- Allocation pass of the ranking stage over an explicit store of record
objects: each surviving reference r gets a fresh object (appended to the
store) holding the spread copy of the record with _searchScore attached;
the original store entries are never written. -/
def allocScored (term : Str) (fields : List String) : List Record → List Nat → List Record × List Nat
  | store, [] => (store, [])
  | store, r :: rest =>
    let item := store.getD r []
    let newStore := store ++ [setField item "_searchScore" (JsVal.num (scoreSearchResult item term fields))]
    let result := allocScored term fields newStore rest
    (result.1, store.length :: result.2)

/-- The text-filter stage over references: same predicate as textFilter,
reading record contents through the store. -/
def refTextFilter (store : List Record) (data : List Nat) (term : Str)
    (fields : List String) (matchType : String) : List Nat :=
  data.filter (fun r =>
    (parseSearchQuery term).all (fun tok =>
      (multiFieldSearch (store.getD r []) tok fields matchType).isSome))

/-- The ranking stage over references: allocate the scored copies, then sort
the fresh references descending by the stored score. -/
def refRankStage (store : List Record) (tf : List Nat) (term : Str)
    (fields : List String) : List Record × List Nat :=
  let al := allocScored term fields store tf
  (al.1, stableSort (fun a b => scoreLe (al.1.getD a []) (al.1.getD b [])) al.2)

/-- Step 3 and 4 of the evaluation over references (text filter, then the
optional ranking), returning the possibly extended store. -/
def refStage1 (store : List Record) (data : List Nat) (term : Str)
    (fields : List String) (matchType : String) (rankResults : Bool) :
    List Record × List Nat :=
  if term ≠ [] ∧ fields ≠ [] then
    (if rankResults then
       refRankStage store (refTextFilter store data term fields matchType) term fields
     else (store, refTextFilter store data term fields matchType))
  else (store, data)

/-- Step 5 over references: the secondary filters, reading contents through
the (possibly extended) store. -/
def refSecondary (env : SearchEnv) (store1 : List Record)
    (filters : List SecFilter) (refs : List Nat) : List Nat :=
  if filters ≠ [] then
    refs.filter (fun r => filters.all (filterMatches env (store1.getD r []))) else refs

/-- Step 6 over references: the sortBy re-sort. -/
def refSortBy (env : SearchEnv) (store1 : List Record) (fields : List String)
    (sortBy : String) (refs : List Nat) : List Nat :=
  if sortBy = "name" ∧ "title" ∈ fields then
    stableSort (fun a b => nameLe env (store1.getD a []) (store1.getD b [])) refs
  else if sortBy = "recent" then
    stableSort (fun a b => recentLe env (store1.getD a []) (store1.getD b [])) refs
  else refs

/-- Step 7 over references: the maxResults cut. -/
def refLimit (maxResults : Option Nat) (refs : List Nat) : List Nat :=
  match maxResults with
  | some k => if k ≠ 0 ∧ k < refs.length then refs.take k else refs
  | none => refs

/-- The evaluation pipeline over an explicit store: records live in a store
of objects and the pipeline manipulates lists of references, so that object
mutation and copying are observable. Mirrors evaluate step for step (the
returned reference list is the results field; timing and statistics carry no
references and are omitted). -/
def refEvaluate (env : SearchEnv) (store : List Record) (data : List Nat)
    (fields : List String) (term : Str) (filters : List SecFilter)
    (matchType : String) (rankResults : Bool) (sortBy : String)
    (maxResults : Option Nat) : List Record × List Nat :=
  if term = [] ∧ filters = [] then (store, data)
  else
    ((refStage1 store data term fields matchType rankResults).1,
     refLimit maxResults
       (refSortBy env (refStage1 store data term fields matchType rankResults).1 fields sortBy
         (refSecondary env (refStage1 store data term fields matchType rankResults).1 filters
           (refStage1 store data term fields matchType rankResults).2)))

/-- useElasticSearch.js addToSearchHistory (lines 151-156), applied
sequentially: prepend the current non-empty debounced term when it is not
already present, keeping at most the first 9 previous entries. -/
def addToSearchHistory (debouncedSearchTerm : Str) (searchHistory : List Str) : List Str :=
  if debouncedSearchTerm ≠ [] ∧ debouncedSearchTerm ∉ searchHistory then
    debouncedSearchTerm :: searchHistory.take 9
  else searchHistory

/-- One user-level history operation. -/
inductive HistOp where
  | add : Str → HistOp
  | clear : HistOp
deriving DecidableEq, Repr

/-- Apply one history operation to the current history state. -/
def histStep (h : List Str) : HistOp → List Str
  | HistOp.add t => addToSearchHistory t h
  | HistOp.clear => []

/-- The history produced by a sequence of operations from the initial empty
history. -/
def runHistory (ops : List HistOp) : List Str := ops.foldl histStep []

/-! Concrete fixtures used to instantiate the theorems. -/

/-- An environment with trivial date parsing and collation, for concrete
evaluations. -/
def envC : SearchEnv := ⟨fun _ => [], fun _ => 0, fun _ _ => 0⟩

/-- Example record from the spec test vectors. -/
def recBuyMilk : Record := [("title", JsVal.str (str "Buy milk"))]

/-- Example record from the spec test vectors. -/
def recFixBug : Record := [("title", JsVal.str (str "Fix bug"))]

/-- Example record from the Scorer test vectors. -/
def recTask : Record := [("title", JsVal.str (str "task"))]

/-- Example record from the Scorer test vectors. -/
def recTasked : Record := [("title", JsVal.str (str "tasked"))]

/-- Example record from the Scorer test vectors. -/
def recMyTaskToday : Record := [("title", JsVal.str (str "my task today"))]

/-- Example record exercising the regex and prototype-chain behaviours. -/
def recAbc : Record := [("title", JsVal.str (str "abc"))]

/-! Characterizations of the string primitives. -/

theorem js_starts_iff (hay needle : Str) :
    jsStartsWith hay needle = true ↔ ∃ t, needle ++ t = hay := by
  induction hay generalizing needle with
  | nil =>
    cases needle with
    | nil => simp [jsStartsWith]
    | cons d ds => simp [jsStartsWith]
  | cons c hs ih =>
    cases needle with
    | nil => simp [jsStartsWith]
    | cons d ds =>
      simp only [jsStartsWith, Bool.and_eq_true, beq_iff_eq]
      constructor
      · rintro ⟨hcd, hrest⟩
        obtain ⟨t, ht⟩ := (ih ds).mp hrest
        exact ⟨t, by simp [hcd, ht]⟩
      · rintro ⟨t, ht⟩
        simp only [List.cons_append, List.cons.injEq] at ht
        exact ⟨ht.1.symm, (ih ds).mpr ⟨t, ht.2⟩⟩

theorem js_includes_step (hay needle : Str) :
    jsIncludes hay needle =
      (jsStartsWith hay needle ||
        match hay with
        | [] => false
        | _ :: hs => jsIncludes hs needle) := by
  rw [jsIncludes.eq_def]
  cases h : jsStartsWith hay needle <;> simp [h]

theorem js_includes_iff (hay needle : Str) :
    jsIncludes hay needle = true ↔ ∃ pre post, pre ++ needle ++ post = hay := by
  induction hay with
  | nil =>
    rw [js_includes_step]
    cases needle with
    | nil => simp [jsStartsWith]
    | cons d ds => simp [jsStartsWith]
  | cons c hs ih =>
    rw [js_includes_step]
    simp only [Bool.or_eq_true, ih, js_starts_iff]
    constructor
    · rintro (⟨t, ht⟩ | ⟨pre, post, hd⟩)
      · exact ⟨[], t, by simp [ht]⟩
      · exact ⟨c :: pre, post, by simp [hd]⟩
    · rintro ⟨pre, post, hd⟩
      cases pre with
      | nil => exact Or.inl ⟨post, by simpa using hd⟩
      | cons p ps =>
        simp only [List.cons_append, List.cons.injEq] at hd
        exact Or.inr ⟨ps, post, hd.2⟩

theorem starts_of_eq (l m : Str) (h : l = m) : jsStartsWith l m = true :=
  (js_starts_iff l m).mpr ⟨[], by simp [h]⟩

theorem includes_of_starts (hay needle : Str) (h : jsStartsWith hay needle = true) :
    jsIncludes hay needle = true := by
  obtain ⟨t, ht⟩ := (js_starts_iff hay needle).mp h
  exact (js_includes_iff hay needle).mpr ⟨[], t, by simp [ht]⟩

theorem sub_of_includes (hay needle : Str) (h : jsIncludes hay needle = true) :
    List.Sublist needle hay := by
  obtain ⟨pre, post, hd⟩ := (js_includes_iff hay needle).mp h
  rw [← hd, List.append_assoc]
  exact (List.sublist_append_left needle post).trans
    (List.sublist_append_right pre (needle ++ post))

theorem lit_word_includes (text term : Str) (h : litWordMatch text term = true) :
    jsIncludes (jsLower text) (jsLower term) = true := by
  unfold litWordMatch at h
  rw [List.any_eq_true] at h
  obtain ⟨i, -, hat⟩ := h
  unfold litWordMatchAt at hat
  simp only [Bool.and_eq_true, decide_eq_true_eq] at hat
  obtain ⟨⟨⟨-, hseg⟩, -⟩, -⟩ := hat
  have hseg' : jsLower term = ((jsLower text).drop i).take term.length := by
    rw [← hseg]
    unfold jsLower
    rw [List.map_take, List.map_drop]
  refine (js_includes_iff _ _).mpr
    ⟨(jsLower text).take i, (jsLower text).drop (i + term.length), ?_⟩
  rw [hseg', List.append_assoc, ← List.drop_drop, List.take_append_drop,
    List.take_append_drop]

theorem seqMatch_lit : ∀ (term seg : Str), '.' ∉ term →
    (seqMatch term seg = true ↔ seg.map Char.toLower = term.map Char.toLower) := by
  intro term
  induction term with
  | nil =>
    intro seg hdot
    cases seg <;> simp [seqMatch]
  | cons a as ih =>
    intro seg hdot
    have ha : a ≠ '.' := fun h => hdot (by rw [← h]; exact List.mem_cons_self a as)
    have hdot' : '.' ∉ as := fun h => hdot (List.mem_cons_of_mem a h)
    cases seg with
    | nil => simp [seqMatch]
    | cons c cs =>
      simp only [seqMatch, Bool.and_eq_true, atomMatch, if_neg ha, beq_iff_eq,
        List.map_cons, List.cons.injEq]
      rw [ih cs hdot']
      constructor
      · rintro ⟨h1, h2⟩
        exact ⟨h1.symm, h2⟩
      · rintro ⟨h1, h2⟩
        exact ⟨h1.symm, h2⟩

theorem wordMatch_lit (text term : Str) (h : regexSafe term = true) :
    wordMatch text term = litWordMatch text term := by
  have hdot : '.' ∉ term := by
    intro hm
    unfold regexSafe at h
    exact absurd ((List.all_eq_true.mp h) '.' hm) (by decide)
  have hat : ∀ i, wordMatchAt text term i = litWordMatchAt text term i := by
    intro i
    unfold wordMatchAt litWordMatchAt
    have hseq : seqMatch term ((text.drop i).take term.length)
        = decide (jsLower ((text.drop i).take term.length) = jsLower term) := by
      unfold jsLower
      have hiff := seqMatch_lit term ((text.drop i).take term.length) hdot
      cases hb : seqMatch term ((text.drop i).take term.length)
      · rw [hb] at hiff
        have hne : ¬ ((text.drop i).take term.length).map Char.toLower
            = term.map Char.toLower := fun hx => absurd (hiff.mpr hx) (by simp)
        exact (decide_eq_false hne).symm
      · rw [hb] at hiff
        have heq : ((text.drop i).take term.length).map Char.toLower
            = term.map Char.toLower := hiff.mp rfl
        exact (decide_eq_true heq).symm
    rw [hseq]
  simp only [wordMatch, litWordMatch, hat]

theorem greedy_sub : ∀ (text term : Str), (greedy text term).2 = [] →
    List.Sublist term text := by
  intro text
  induction text with
  | nil =>
    intro term h
    cases term with
    | nil => exact List.nil_sublist _
    | cons d tm => simp [greedy] at h
  | cons c tx ih =>
    intro term h
    cases term with
    | nil => exact List.nil_sublist _
    | cons d tm =>
      by_cases hcd : c = d
      · simp only [greedy, if_pos hcd] at h
        subst hcd
        exact List.Sublist.cons₂ c (ih tm h)
      · simp only [greedy, if_neg hcd] at h
        exact List.Sublist.cons c (ih (d :: tm) h)

/-! Spec-side formulations used to state the claims. -/

/-- Following the spec wording for the Scorer: a field is awarded exactly
the highest applicable tier, written as an explicit maximum over the tiers
that apply (exact 100, starts-with 75, contains 50, whole-word 25, else 0).
The whole-word tier is the literal whole-word reading of the spec
(litWordMatch); on regexSafe queries it coincides with the word-tier regex
of the code. -/
def specTierAward (v term : Str) : Nat :=
  max (if exactMatch v term = true then 100 else 0)
    (max (if prefixMatch v term = true then 75 else 0)
      (max (if substringMatch v term = true then 50 else 0)
        (if litWordMatch v term = true then 25 else 0)))

/-- Per-field award of the spec-side Scorer: fields whose value is not a
non-empty string award nothing. -/
def specFieldAward (item : Record) (term : Str) (field : String) : Nat :=
  match getStr item field with
  | some v => specTierAward v term
  | none => 0

/-- The per-field matching condition of the claims: the field value is a
non-empty string that matches the token under the configured matchType; for
fuzzy, its fuzzyMatch score exceeds 0.5. -/
def fieldTokenMatch (item : Record) (field : String) (term : Str)
    (matchType : String) : Bool :=
  match getStr item field with
  | some v =>
    if matchType = "fuzzy" then scoreGtHalf (fuzzyMatch v term)
    else matchBool matchType v term
  | none => false

/-! Scorer lemmas. -/

theorem scoreLoopStep_award (term : Str) (hsafe : regexSafe term = true)
    (item : Record) (score : Nat) (field : String) :
    scoreLoopStep term item score field = score + specFieldAward item term field := by
  unfold scoreLoopStep specFieldAward
  cases hg : getStr item field with
  | none => simp
  | some v =>
    unfold specTierAward exactMatch substringMatch prefixMatch
    have hw := wordMatch_lit v term hsafe
    by_cases h1 : jsLower v = jsLower term
    · have h2 : jsStartsWith (jsLower term) (jsLower term) = true := starts_of_eq _ _ rfl
      have h3 : jsIncludes (jsLower term) (jsLower term) = true := includes_of_starts _ _ h2
      by_cases h4 : litWordMatch v term = true <;> simp [h1, h2, h3, h4, hw]
    · by_cases h2 : jsStartsWith (jsLower v) (jsLower term) = true
      · have h3 : jsIncludes (jsLower v) (jsLower term) = true := includes_of_starts _ _ h2
        by_cases h4 : litWordMatch v term = true <;> simp [h1, h2, h3, h4, hw]
      · by_cases h3 : jsIncludes (jsLower v) (jsLower term) = true
        · by_cases h4 : litWordMatch v term = true <;> simp [h1, h2, h3, h4, hw]
        · have h4 : ¬ litWordMatch v term = true := fun hlw => h3 (lit_word_includes _ _ hlw)
          simp [h1, h2, h3, h4, hw]

theorem score_foldl (term : Str) (hsafe : regexSafe term = true) (item : Record) :
    ∀ (fields : List String) (acc : Nat),
    fields.foldl (scoreLoopStep term item) acc
      = acc + (fields.map (specFieldAward item term)).sum := by
  intro fields
  induction fields with
  | nil => intro acc; simp
  | cons f rest ih =>
    intro acc
    rw [List.foldl_cons, scoreLoopStep_award term hsafe, ih, List.map_cons,
      List.sum_cons]
    omega

/-! Tokenizer lemmas. -/

theorem parse_token_ne_nil (q t : Str) (ht : t ∈ parseSearchQuery q) : t ≠ [] := by
  unfold parseSearchQuery at ht
  have := (List.mem_filter.mp ht).2
  simp only [decide_eq_true_eq] at this
  exact List.length_pos.mp this

theorem parseGo_no_quote : ∀ (rem current : Str) (inQ : Bool), '"' ∉ current →
    ∀ t ∈ parseGo rem current inQ, '"' ∉ t := by
  intro rem
  induction rem with
  | nil =>
    intro current inQ hcur t ht
    simp only [parseGo] at ht
    by_cases h : current = []
    · simp [h] at ht
    · rw [if_neg h] at ht
      rw [List.mem_singleton] at ht
      exact ht ▸ hcur
  | cons c rest ih =>
    intro current inQ hcur t ht
    simp only [parseGo] at ht
    by_cases hq : c = '"'
    · rw [if_pos hq] at ht
      exact ih current (!inQ) hcur t ht
    · rw [if_neg hq] at ht
      by_cases hsp : c = ' ' ∧ inQ = false
      · rw [if_pos hsp] at ht
        by_cases hc : current = []
        · rw [if_pos hc] at ht
          exact ih [] inQ (by simp) t ht
        · rw [if_neg hc] at ht
          rcases List.mem_cons.mp ht with h | h
          · exact h ▸ hcur
          · exact ih [] inQ (by simp) t h
      · rw [if_neg hsp] at ht
        refine ih (current ++ [c]) inQ ?_ t ht
        intro hmem
        rcases List.mem_append.mp hmem with h | h
        · exact hcur h
        · exact hq ((List.mem_singleton.mp h).symm)

theorem parse_token_no_quote (q t : Str) (ht : t ∈ parseSearchQuery q) : '"' ∉ t := by
  unfold parseSearchQuery at ht
  exact parseGo_no_quote q [] false (by simp) t (List.mem_filter.mp ht).1

/-! Multi-field matcher lemmas. -/

theorem multiFieldGo_isSome (item : Record) (term : Str) (matchType : String) :
    ∀ (fields : List String),
      (multiFieldGo item term matchType fields).isSome = true ↔
        ∃ f ∈ fields, fieldTokenMatch item f term matchType = true := by
  intro fields
  induction fields with
  | nil => simp [multiFieldGo]
  | cons f rest ih =>
    have hmem : ∀ (p : String → Prop),
        (∃ g ∈ f :: rest, p g) ↔ (p f ∨ ∃ g ∈ rest, p g) := by
      intro p
      constructor
      · rintro ⟨g, hg, hp⟩
        rcases List.mem_cons.mp hg with h | h
        · exact Or.inl (h ▸ hp)
        · exact Or.inr ⟨g, h, hp⟩
      · rintro (hp | ⟨g, hg, hp⟩)
        · exact ⟨f, List.mem_cons_self f rest, hp⟩
        · exact ⟨g, List.mem_cons_of_mem f hg, hp⟩
    rw [hmem (fun g => fieldTokenMatch item g term matchType = true)]
    cases hg : getStr item f with
    | none =>
      have hft : fieldTokenMatch item f term matchType = false := by
        simp [fieldTokenMatch, hg]
      simp only [multiFieldGo, hg, hft, Bool.false_eq_true, false_or]
      exact ih
    | some v =>
      have hft : fieldTokenMatch item f term matchType =
          (if matchType = "fuzzy" then scoreGtHalf (fuzzyMatch v term)
           else matchBool matchType v term) := by
        simp [fieldTokenMatch, hg]
      by_cases hf : matchType = "fuzzy"
      · subst hf
        by_cases hs : scoreGtHalf (fuzzyMatch v term) = true
        · simp [multiFieldGo, hg, hft, hs]
        · simp [multiFieldGo, hg, hft, hs, ih]
      · by_cases hm : matchBool matchType v term = true
        · simp [multiFieldGo, hg, hft, hf, hm]
        · simp [multiFieldGo, hg, hft, hf, hm, ih]

/-! Sorting and allocation lemmas. -/

theorem mem_insertSorted (le : α → α → Bool) (x y : α) : ∀ (l : List α),
    y ∈ insertSorted le x l ↔ y = x ∨ y ∈ l := by
  intro l
  induction l with
  | nil => simp [insertSorted]
  | cons z zs ih =>
    simp only [insertSorted]
    by_cases h : le x z = true
    · simp [h, List.mem_cons]
    · simp [h, List.mem_cons, ih]
      tauto

theorem mem_stableSort (le : α → α → Bool) (y : α) : ∀ (l : List α),
    y ∈ stableSort le l ↔ y ∈ l := by
  intro l
  induction l with
  | nil => simp [stableSort]
  | cons z zs ih =>
    simp only [stableSort, List.foldr_cons] at ih ⊢
    rw [mem_insertSorted, ih, List.mem_cons]

theorem allocScored_spec (term : Str) (fields : List String) :
    ∀ (tf : List Nat) (store : List Record), (∀ r ∈ tf, r < store.length) →
      (∃ ext, (allocScored term fields store tf).1 = store ++ ext) ∧
      (∀ q ∈ (allocScored term fields store tf).2,
        store.length ≤ q ∧ ∃ r ∈ tf,
          (allocScored term fields store tf).1.getD q []
            = setField (store.getD r []) "_searchScore"
                (JsVal.num (scoreSearchResult (store.getD r []) term fields))) := by
  intro tf
  induction tf with
  | nil =>
    intro store hlt
    exact ⟨⟨[], by simp [allocScored]⟩, by simp [allocScored]⟩
  | cons r rest ih =>
    intro store hlt
    have hr : r < store.length := hlt r (List.mem_cons_self r rest)
    simp only [allocScored]
    set c := setField (store.getD r [])
      "_searchScore" (JsVal.num (scoreSearchResult (store.getD r []) term fields)) with hc
    have hlt' : ∀ x ∈ rest, x < (store ++ [c]).length := by
      intro x hx
      have := hlt x (List.mem_cons_of_mem r hx)
      simp only [List.length_append, List.length_cons, List.length_nil]
      omega
    obtain ⟨⟨ext, hext⟩, hmem⟩ := ih (store ++ [c]) hlt'
    constructor
    · exact ⟨[c] ++ ext, by rw [hext, List.append_assoc]⟩
    · intro q hq
      rcases List.mem_cons.mp hq with hq | hq
      · subst hq
        refine ⟨le_refl _, r, List.mem_cons_self r rest, ?_⟩
        rw [hext, List.getD_eq_getElem?_getD, List.getElem?_append]
        have hlen : store.length < (store ++ [c]).length := by simp
        rw [if_pos hlen, List.getElem?_append_right (le_refl store.length)]
        simp [hc, List.getD_eq_getElem?_getD]
      · obtain ⟨hge, r', hr', heq⟩ := hmem q hq
        have hge' : store.length ≤ q := by
          simp only [List.length_append, List.length_cons, List.length_nil] at hge
          omega
        refine ⟨hge', r', List.mem_cons_of_mem r hr', ?_⟩
        have hrlt : r' < store.length := hlt r' (List.mem_cons_of_mem r hr')
        have hsm : (store ++ [c]).getD r' [] = store.getD r' [] := by
          rw [List.getD_eq_getElem?_getD, List.getD_eq_getElem?_getD,
            List.getElem?_append, if_pos hrlt]
        rw [heq, hsm]

/-! Fallback lemmas for unknown matchType values. -/

theorem matchBool_fallback (matchType : String) (v term : Str)
    (h1 : matchType ≠ "exact") (h2 : matchType ≠ "substring")
    (h3 : matchType ≠ "word") (h4 : matchType ≠ "fuzzy")
    (h5 : matchType ≠ "prefix") (h6 : matchType ∉ objectProtoKeys) :
    matchBool matchType v term = substringMatch v term := by
  have hc : matchType ≠ "constructor" := fun h => h6 (by rw [h]; decide)
  have ht : matchType ≠ "toString" := fun h => h6 (by rw [h]; decide)
  have hp : matchType ≠ "isPrototypeOf" := fun h => h6 (by rw [h]; decide)
  rw [matchBool, if_neg h1, if_neg h2, if_neg h3, if_neg h4, if_neg h5,
    if_neg hc, if_neg ht, if_neg hp, if_neg h6]

theorem multiFieldGo_fallback (item : Record) (term : Str) (matchType : String)
    (h1 : matchType ≠ "exact") (h2 : matchType ≠ "substring")
    (h3 : matchType ≠ "word") (h4 : matchType ≠ "fuzzy")
    (h5 : matchType ≠ "prefix") (h6 : matchType ∉ objectProtoKeys) :
    ∀ (fields : List String),
      multiFieldGo item term matchType fields
        = multiFieldGo item term "substring" fields := by
  intro fields
  induction fields with
  | nil => rfl
  | cons f rest ih =>
    cases hg : getStr item f with
    | none =>
      simp only [multiFieldGo, hg]
      exact ih
    | some v =>
      simp only [multiFieldGo, hg]
      rw [if_neg h4, if_neg (by decide : ¬ ("substring" : String) = "fuzzy")]
      rw [matchBool_fallback matchType v term h1 h2 h3 h4 h5 h6]
      have hsub : matchBool "substring" v term = substringMatch v term := by
        rw [matchBool, if_neg (by decide : ¬ ("substring" : String) = "exact"), if_pos rfl]
      rw [hsub]
      by_cases hm : substringMatch v term = true
      · rw [if_pos hm, if_pos hm]
      · rw [if_neg hm, if_neg hm, ih]

/-! The claims. -/

/-- C1: for every record collection, non-empty debounced term and non-empty
searchFields, a record is in the text-filtered result of evaluate iff every
token produced by parseSearchQuery matches it in at least one searchable
field under the configured matchType (for fuzzy, a field whose fuzzyMatch
score exceeds 0.5), different tokens possibly via different fields. -/
theorem conjunctive_token_matching (data : List Record) (term : Str)
    (fields : List String) (matchType : String)
    (hterm : term ≠ []) (hfields : fields ≠ []) (r : Record) :
    r ∈ textFilter data term fields matchType ↔
      r ∈ data ∧ ∀ tok ∈ parseSearchQuery term,
        ∃ f ∈ fields, fieldTokenMatch r f tok matchType = true := by
  unfold textFilter
  rw [List.mem_filter]
  constructor
  · rintro ⟨hmem, hall⟩
    refine ⟨hmem, ?_⟩
    intro tok htok
    have h := (List.all_eq_true.mp hall) tok htok
    have htokne : tok ≠ [] := parse_token_ne_nil term tok htok
    rw [multiFieldSearch, if_neg (by simp [htokne, hfields])] at h
    exact (multiFieldGo_isSome r tok matchType fields).mp h
  · rintro ⟨hmem, hall⟩
    refine ⟨hmem, List.all_eq_true.mpr ?_⟩
    intro tok htok
    have htokne : tok ≠ [] := parse_token_ne_nil term tok htok
    rw [multiFieldSearch, if_neg (by simp [htokne, hfields])]
    exact (multiFieldGo_isSome r tok matchType fields).mpr (hall tok htok)

/-- Witness for C1, on the spec test vector: query bug over title with
substring matching keeps the record whose title is Fix bug. -/
theorem conjunctive_token_matching_witness :
    recFixBug ∈ textFilter [recBuyMilk, recFixBug] (str "bug") ["title"] "substring" :=
  (conjunctive_token_matching [recBuyMilk, recFixBug] (str "bug") ["title"]
    "substring" (by decide) (by decide) recFixBug).mpr ⟨by decide, by decide⟩

/-- C2 counterexample: the claim quantifies over every raw query string,
but the word tier is a regular-expression match of the interpolated query:
for the record with title abc and the query a.c the dot is a wildcard, the
code awards the word tier (25), while the claimed tiers (exact,
starts-with, contains, literal whole-word) all fail and award 0. -/
theorem scorer_tier_counterexample :
    scoreSearchResult recAbc (str "a.c") ["title"]
      ≠ (["title"].map (specFieldAward recAbc (str "a.c"))).sum := by
  decide

/-- C2 amended: for every record and field list, and every raw query string
free of regex syntax characters (for such queries the word-tier regex
matches the query literally and new RegExp cannot throw), scoreSearchResult
awards per field exactly the highest applicable tier (exact 100, else
starts-with 75, else contains 50, else whole-word 25, else 0), one tier per
field, summed over the field list; the empty query scores 0 for every
record. Metacharacter queries are excluded: the word tier then follows
regex semantics (a dot is a wildcard) and some queries (a lone parenthesis)
make new RegExp throw a SyntaxError. -/
theorem scorer_tier_additivity (item : Record) (term : Str)
    (fields : List String) (hsafe : regexSafe term = true) :
    scoreSearchResult item term fields =
      if term = [] then 0 else (fields.map (specFieldAward item term)).sum := by
  unfold scoreSearchResult
  by_cases h : term = []
  · rw [if_pos h, if_pos h]
  · rw [if_neg h, if_neg h, score_foldl term hsafe, Nat.zero_add]

/-- Witness for C2 on the Scorer test vector: the query task is regex-safe
and the exact tier awards 100. -/
theorem scorer_tier_additivity_witness :
    scoreSearchResult recTask (str "task") ["title"]
      = if (str "task") = ([] : Str) then 0
        else (["title"].map (specFieldAward recTask (str "task"))).sum :=
  scorer_tier_additivity recTask (str "task") ["title"] (by decide)

/-- C3: parseSearchQuery scans left to right with an inside-quotes flag; a
double quote flips the flag and is never emitted; a space outside quotes
closes the current non-empty token; other characters append; the final
non-empty accumulator is flushed; no empty token is produced. Includes the
three concrete test vectors. -/
theorem tokenizer_behavior :
    parseSearchQuery (str "urgent \"fix bug\" now")
        = [str "urgent", str "fix bug", str "now"] ∧
    parseSearchQuery (str "") = [] ∧
    parseSearchQuery (str "  a  ") = [str "a"] ∧
    (∀ (q t : Str), t ∈ parseSearchQuery q → t ≠ []) ∧
    (∀ (q t : Str), t ∈ parseSearchQuery q → '"' ∉ t) := by
  refine ⟨by decide, by decide, by decide, ?_, ?_⟩
  · exact fun q t ht => parse_token_ne_nil q t ht
  · exact fun q t ht => parse_token_no_quote q t ht

/-- Witness for C3: the quantified parts applied to the token a of the
third test vector. -/
theorem tokenizer_behavior_witness : str "a" ≠ [] ∧ '"' ∉ str "a" :=
  ⟨tokenizer_behavior.2.2.2.1 (str "  a  ") (str "a") (by decide),
   tokenizer_behavior.2.2.2.2 (str "  a  ") (str "a") (by decide)⟩

/-- C4 counterexample: the claim quantifies over every term string, but the
term is interpolated into the word-match regex: for text abc and term a.c
the dot matches the b, the word branch fires and fuzzyMatch returns 0.8,
yet a.c is not a subsequence of abc. -/
theorem fuzzy_subsequence_counterexample :
    0 < (fuzzyMatch (str "abc") (str "a.c")).num ∧
      ¬ List.Sublist (jsLower (str "a.c")) (jsLower (str "abc")) := by
  decide

/-- C4 amended: for every text and every term free of regex syntax
characters (so the word branch is a literal whole-word match and the
pattern cannot throw), a strictly positive fuzzyMatch score implies the
characters of the term occur, case-insensitively and in order though not
necessarily contiguously, as a subsequence of the text. -/
theorem fuzzy_subsequence_order (text term : Str)
    (hsafe : regexSafe term = true)
    (h : 0 < (fuzzyMatch text term).num) :
    List.Sublist (jsLower term) (jsLower text) := by
  unfold fuzzyMatch at h
  by_cases h1 : jsLower text = jsLower term
  · rw [h1]
  · rw [if_neg h1] at h
    by_cases h2 : jsIncludes (jsLower text) (jsLower term) = true
    · exact sub_of_includes _ _ h2
    · rw [if_neg h2] at h
      by_cases h3 : wordMatch text term = true
      · rw [wordMatch_lit text term hsafe] at h3
        exact sub_of_includes _ _ (lit_word_includes _ _ h3)
      · rw [if_neg h3] at h
        by_cases h4 : (greedy (jsLower text) (jsLower term)).2 = []
        · exact greedy_sub _ _ h4
        · rw [if_neg h4] at h
          simp at h

/-- Witness for C4: the regex-safe term b scores 0.9 against abc and b is a
subsequence of abc. -/
theorem fuzzy_subsequence_order_witness :
    0 < (fuzzyMatch (str "abc") (str "b")).num ∧
      List.Sublist (jsLower (str "b")) (jsLower (str "abc")) :=
  ⟨by decide, fuzzy_subsequence_order (str "abc") (str "b") (by decide) (by decide)⟩

/-- C5 counterexample: the three claimed Scorer values do not all hold; on
the record with title my task today and query task the code returns the
contains tier (the query is a substring of the field value), not 25. -/
theorem scorer_values_counterexample :
    ¬ (scoreSearchResult recTask (str "task") ["title"] = 100 ∧
       scoreSearchResult recTasked (str "task") ["title"] = 75 ∧
       scoreSearchResult recMyTaskToday (str "task") ["title"] = 25) := by
  decide

/-- C5 amended: the first two claimed values hold and the third is 50, the
contains tier, because substring containment has higher precedence than the
whole-word tier. -/
theorem scorer_values_amended :
    scoreSearchResult recTask (str "task") ["title"] = 100 ∧
    scoreSearchResult recTasked (str "task") ["title"] = 75 ∧
    scoreSearchResult recMyTaskToday (str "task") ["title"] = 50 := by
  decide

/-- C7 counterexample: the matchType constructor is outside the five
strategy names but does not behave as substring: the table lookup inherits
Object.prototype.constructor, the Object function, whose call wraps the
field value into a truthy object, so the record matches a query its title
does not contain at all. -/
theorem matchtype_prototype_counterexample :
    multiFieldSearch recAbc (str "zzz") ["title"] "constructor"
      ≠ multiFieldSearch recAbc (str "zzz") ["title"] "substring" := by
  decide

/-- C7 amended: for every matchType outside the five strategy names and
outside the property names inherited from Object.prototype,
multiFieldSearch behaves exactly as with matchType substring, with no error
path. The inherited names violate the original claim: constructor and
toString produce truthy call results, so any non-empty string field matches
regardless of the term; isPrototypeOf never matches; and the remaining
inherited names make the program throw a TypeError, contradicting
never-an-error. -/
theorem unknown_matchtype_fallback (item : Record) (term : Str)
    (fields : List String) (matchType : String)
    (h : matchType ∉ (["exact", "substring", "word", "fuzzy", "prefix"] : List String))
    (hp : matchType ∉ objectProtoKeys) :
    multiFieldSearch item term fields matchType
      = multiFieldSearch item term fields "substring" := by
  simp only [List.mem_cons, List.not_mem_nil, or_false, not_or] at h
  obtain ⟨h1, h2, h3, h4, h5⟩ := h
  rw [multiFieldSearch, multiFieldSearch]
  by_cases hbase : term = [] ∨ fields = []
  · rw [if_pos hbase, if_pos hbase]
  · rw [if_neg hbase, if_neg hbase,
      multiFieldGo_fallback item term matchType h1 h2 h3 h4 h5 hp fields]

/-- Witness for C7: the strategy name regex is neither an own key nor an
inherited one and matches like substring on a concrete record. -/
theorem unknown_matchtype_fallback_witness :
    multiFieldSearch recFixBug (str "bug") ["title"] "regex"
      = multiFieldSearch recFixBug (str "bug") ["title"] "substring" :=
  unknown_matchtype_fallback recFixBug (str "bug") ["title"] "regex"
    (by decide) (by decide)

/-- C8: with an empty debounced term and no applied filters, evaluate
returns all records unchanged in their original order, resultCount equal to
the collection length, searchTimeMs equal to 0, and searched equal to
false. -/
theorem empty_query_short_circuit (env : SearchEnv) (data : List Record)
    (fields : List String) (term : Str) (filters : List SecFilter)
    (matchType : String) (rankResults : Bool) (sortBy : String)
    (maxResults : Option Nat) (elapsed : Rat)
    (hterm : term = []) (hfilt : filters = []) :
    (evaluate env data fields term filters matchType rankResults sortBy maxResults elapsed).results = data ∧
    (evaluate env data fields term filters matchType rankResults sortBy maxResults elapsed).resultCount = data.length ∧
    (evaluate env data fields term filters matchType rankResults sortBy maxResults elapsed).searchTime = 0 ∧
    (evaluate env data fields term filters matchType rankResults sortBy maxResults elapsed).searched = false := by
  subst hterm hfilt
  simp [evaluate]

/-- Witness for C8 on a two-record collection, with ranking on and a nonzero
measured time, which the short-circuit ignores. -/
theorem empty_query_short_circuit_witness :
    (evaluate envC [recBuyMilk, recFixBug] ["title"] (str "") [] "substring" true "relevance" none 7).results = [recBuyMilk, recFixBug] ∧
    (evaluate envC [recBuyMilk, recFixBug] ["title"] (str "") [] "substring" true "relevance" none 7).resultCount = 2 ∧
    (evaluate envC [recBuyMilk, recFixBug] ["title"] (str "") [] "substring" true "relevance" none 7).searchTime = 0 ∧
    (evaluate envC [recBuyMilk, recFixBug] ["title"] (str "") [] "substring" true "relevance" none 7).searched = false :=
  empty_query_short_circuit envC [recBuyMilk, recFixBug] ["title"] (str "") []
    "substring" true "relevance" none 7 rfl rfl

/-- C10: starting from the empty history, any sequence of add and clear
operations keeps at most 10 entries, all non-empty, most-recent first; an
add with an empty or already-present term leaves the history unchanged, and
an accepted add prepends the term in front of the first 9 old entries. -/
theorem search_history_invariant : ∀ (ops : List HistOp),
    (runHistory ops).length ≤ 10 ∧
    (∀ s ∈ runHistory ops, s ≠ []) ∧
    (∀ t : Str, t = [] ∨ t ∈ runHistory ops →
      runHistory (ops ++ [HistOp.add t]) = runHistory ops) ∧
    (∀ t : Str, t ≠ [] → t ∉ runHistory ops →
      runHistory (ops ++ [HistOp.add t]) = t :: (runHistory ops).take 9) := by
  have hstep : ∀ (h : List Str) (op : HistOp), h.length ≤ 10 → (∀ s ∈ h, s ≠ []) →
      (histStep h op).length ≤ 10 ∧ (∀ s ∈ histStep h op, s ≠ []) := by
    intro h op hlen hne
    cases op with
    | clear => simp [histStep]
    | add t =>
      simp only [histStep, addToSearchHistory]
      by_cases hg : t ≠ [] ∧ t ∉ h
      · rw [if_pos hg]
        constructor
        · simp only [List.length_cons, List.length_take]
          omega
        · intro s hs
          rcases List.mem_cons.mp hs with hs | hs
          · exact hs ▸ hg.1
          · exact hne s (List.take_subset 9 h hs)
      · rw [if_neg hg]
        exact ⟨hlen, hne⟩
  have hinv : ∀ (ops : List HistOp),
      (runHistory ops).length ≤ 10 ∧ (∀ s ∈ runHistory ops, s ≠ []) := by
    have haux : ∀ (ops : List HistOp) (h : List Str), h.length ≤ 10 → (∀ s ∈ h, s ≠ []) →
        (ops.foldl histStep h).length ≤ 10 ∧ (∀ s ∈ ops.foldl histStep h, s ≠ []) := by
      intro ops
      induction ops with
      | nil => intro h hlen hne; exact ⟨hlen, hne⟩
      | cons op rest ih =>
        intro h hlen hne
        rw [List.foldl_cons]
        obtain ⟨hlen1, hne1⟩ := hstep h op hlen hne
        exact ih (histStep h op) hlen1 hne1
    intro ops
    exact haux ops [] (by simp) (by simp)
  intro ops
  have happ : ∀ t, runHistory (ops ++ [HistOp.add t])
      = addToSearchHistory t (runHistory ops) := by
    intro t
    rw [runHistory, List.foldl_append]
    rfl
  refine ⟨(hinv ops).1, (hinv ops).2, ?_, ?_⟩
  · intro t ht
    rw [happ, addToSearchHistory]
    rcases ht with ht | ht
    · rw [if_neg (by simp [ht])]
    · rw [if_neg (by simp [ht])]
  · intro t hne hmem
    rw [happ, addToSearchHistory, if_pos ⟨hne, hmem⟩]

/-- Witness for C10: an accepted add on the history built by one earlier
add prepends the new term. -/
theorem search_history_invariant_witness :
    runHistory ([HistOp.add (str "alpha")] ++ [HistOp.add (str "beta")])
      = str "beta" :: (runHistory [HistOp.add (str "alpha")]).take 9 :=
  (search_history_invariant [HistOp.add (str "alpha")]).2.2.2 (str "beta")
    (by decide) (by decide)

/-- C6 counterexample: with maxResults = 0 the truthiness guard skips the
cut, so the result count is the full count, not min 0 of it. -/
theorem maxresults_zero_counterexample :
    (evaluate envC [recFixBug] ["title"] (str "bug") [] "substring" false "relevance" (some 0) 0).resultCount
      ≠ min 0 ((evaluate envC [recFixBug] ["title"] (str "bug") [] "substring" false "relevance" none 0).resultCount) := by
  decide

/-- C6 amended: for every k at least 1 and every evaluation that does not
take the empty-term short circuit, the result count with maxResults = k is
the minimum of k and the unbounded result count, and the kept records are
exactly the first k of the unbounded ordering (truncation after all
sorting). Excluded by the code: maxResults = 0 is falsy and behaves like
unset, and the short circuit ignores maxResults altogether. -/
theorem maxresults_monotone (env : SearchEnv) (data : List Record)
    (fields : List String) (term : Str) (filters : List SecFilter)
    (matchType : String) (rankResults : Bool) (sortBy : String) (k : Nat)
    (elapsed : Rat) (hk : 1 ≤ k) (hss : ¬(term = [] ∧ filters = [])) :
    (evaluate env data fields term filters matchType rankResults sortBy (some k) elapsed).results
      = ((evaluate env data fields term filters matchType rankResults sortBy none elapsed).results).take k ∧
    (evaluate env data fields term filters matchType rankResults sortBy (some k) elapsed).resultCount
      = min k (evaluate env data fields term filters matchType rankResults sortBy none elapsed).resultCount := by
  simp only [evaluate, if_neg hss]
  set p := searchPipeline env data fields term filters matchType rankResults sortBy with hp
  constructor
  · by_cases hlt : k < p.length
    · rw [if_pos ⟨by omega, hlt⟩]
    · rw [if_neg fun hcon => hlt hcon.2]
      exact (List.take_of_length_le (by omega)).symm
  · by_cases hlt : k < p.length
    · rw [if_pos ⟨by omega, hlt⟩, List.length_take]
    · rw [if_neg fun hcon => hlt hcon.2]
      omega

/-- Witness for C6: limit 1 on a two-match collection keeps exactly the
first record of the unbounded ordering. -/
theorem maxresults_monotone_witness :
    (evaluate envC [recBuyMilk, recFixBug] ["title"] (str "b") [] "substring" false "relevance" (some 1) 0).results
      = ((evaluate envC [recBuyMilk, recFixBug] ["title"] (str "b") [] "substring" false "relevance" none 0).results).take 1 ∧
    (evaluate envC [recBuyMilk, recFixBug] ["title"] (str "b") [] "substring" false "relevance" (some 1) 0).resultCount
      = min 1 (evaluate envC [recBuyMilk, recFixBug] ["title"] (str "b") [] "substring" false "relevance" none 0).resultCount :=
  maxresults_monotone envC [recBuyMilk, recFixBug] ["title"] (str "b") []
    "substring" false "relevance" 1 0 (by decide) (by decide)

/-! Stage lemmas for the store-based pipeline. -/

theorem refStage1_spec (store : List Record) (data : List Nat) (term : Str)
    (fields : List String) (matchType : String) (rankResults : Bool)
    (hrefs : ∀ r ∈ data, r < store.length) :
    (∃ ext, (refStage1 store data term fields matchType rankResults).1 = store ++ ext) ∧
    (rankResults = true → term ≠ [] → fields ≠ [] →
      ∀ q ∈ (refStage1 store data term fields matchType rankResults).2,
        store.length ≤ q ∧ ∃ r ∈ data,
          (refStage1 store data term fields matchType rankResults).1.getD q []
            = setField (store.getD r []) "_searchScore"
                (JsVal.num (scoreSearchResult (store.getD r []) term fields))) := by
  by_cases hb : term ≠ [] ∧ fields ≠ []
  · rw [refStage1, if_pos hb]
    by_cases hr : rankResults = true
    · rw [if_pos hr]
      set tf := refTextFilter store data term fields matchType with htf
      have htfsub : ∀ r ∈ tf, r ∈ data := by
        intro r hmem
        rw [htf, refTextFilter] at hmem
        exact List.mem_of_mem_filter hmem
      have htflt : ∀ r ∈ tf, r < store.length := fun r h => hrefs r (htfsub r h)
      obtain ⟨⟨ext, hext⟩, hmem⟩ := allocScored_spec term fields tf store htflt
      constructor
      · exact ⟨ext, hext⟩
      · intro _ _ _ q hq
        have hq' : q ∈ (allocScored term fields store tf).2 := by
          simp only [refRankStage] at hq
          exact (mem_stableSort _ q _).mp hq
        obtain ⟨hge, r, hrtf, heq⟩ := hmem q hq'
        exact ⟨hge, r, htfsub r hrtf, heq⟩
    · rw [if_neg hr]
      exact ⟨⟨[], by simp⟩, fun h => absurd h hr⟩
  · rw [refStage1, if_neg hb]
    refine ⟨⟨[], by simp⟩, ?_⟩
    intro _ ht hf
    exact absurd ⟨ht, hf⟩ hb

theorem refSecondary_subset (env : SearchEnv) (store1 : List Record)
    (filters : List SecFilter) (refs : List Nat) (q : Nat)
    (hq : q ∈ refSecondary env store1 filters refs) : q ∈ refs := by
  rw [refSecondary] at hq
  by_cases h : filters ≠ []
  · rw [if_pos h] at hq
    exact List.mem_of_mem_filter hq
  · rwa [if_neg h] at hq

theorem refSortBy_subset (env : SearchEnv) (store1 : List Record)
    (fields : List String) (sortBy : String) (refs : List Nat) (q : Nat)
    (hq : q ∈ refSortBy env store1 fields sortBy refs) : q ∈ refs := by
  rw [refSortBy] at hq
  by_cases h1 : sortBy = "name" ∧ "title" ∈ fields
  · rw [if_pos h1] at hq
    exact (mem_stableSort _ q refs).mp hq
  · rw [if_neg h1] at hq
    by_cases h2 : sortBy = "recent"
    · rw [if_pos h2] at hq
      exact (mem_stableSort _ q refs).mp hq
    · rwa [if_neg h2] at hq

theorem refLimit_subset (maxResults : Option Nat) (refs : List Nat) (q : Nat)
    (hq : q ∈ refLimit maxResults refs) : q ∈ refs := by
  cases maxResults with
  | none => exact hq
  | some k =>
    rw [refLimit] at hq
    by_cases h : k ≠ 0 ∧ k < refs.length
    · rw [if_pos h] at hq
      exact List.take_subset k refs hq
    · rwa [if_neg h] at hq

/-- C9: evaluate never mutates a caller record: the store after evaluation
is the old store extended by freshly allocated objects only, and when
ranking runs, every published result reference is fresh and holds the spread
copy of a caller record with _searchScore attached; the _searchScore field
is therefore never written to an original record. -/
theorem no_caller_record_mutation (env : SearchEnv) (store : List Record)
    (data : List Nat) (fields : List String) (term : Str)
    (filters : List SecFilter) (matchType : String) (rankResults : Bool)
    (sortBy : String) (maxResults : Option Nat)
    (hrefs : ∀ r ∈ data, r < store.length) :
    (∃ ext, (refEvaluate env store data fields term filters matchType rankResults sortBy maxResults).1 = store ++ ext) ∧
    (rankResults = true → term ≠ [] → fields ≠ [] →
      ∀ q ∈ (refEvaluate env store data fields term filters matchType rankResults sortBy maxResults).2,
        store.length ≤ q ∧ ∃ r ∈ data,
          (refEvaluate env store data fields term filters matchType rankResults sortBy maxResults).1.getD q []
            = setField (store.getD r []) "_searchScore"
                (JsVal.num (scoreSearchResult (store.getD r []) term fields))) := by
  obtain ⟨⟨ext, hext⟩, hcopy⟩ :=
    refStage1_spec store data term fields matchType rankResults hrefs
  by_cases hsc : term = [] ∧ filters = []
  · rw [refEvaluate, if_pos hsc]
    refine ⟨⟨[], by simp⟩, ?_⟩
    intro _ ht _
    exact absurd hsc.1 ht
  · rw [refEvaluate, if_neg hsc]
    refine ⟨⟨ext, hext⟩, ?_⟩
    intro hr ht hf q hq
    have hq1 : q ∈ (refStage1 store data term fields matchType rankResults).2 :=
      refSecondary_subset _ _ _ _ q
        (refSortBy_subset _ _ _ _ _ q (refLimit_subset _ _ q hq))
    exact hcopy hr ht hf q hq1

/-- Witness for C9: a one-record store with ranking on; the only published
reference is the fresh copy at index 1 carrying _searchScore. -/
theorem no_caller_record_mutation_witness :
    [recFixBug].length ≤ 1 ∧ ∃ r ∈ [0],
      (refEvaluate envC [recFixBug] [0] ["title"] (str "bug") [] "substring" true "relevance" none).1.getD 1 []
        = setField ([recFixBug].getD r []) "_searchScore"
            (JsVal.num (scoreSearchResult ([recFixBug].getD r []) (str "bug") ["title"])) :=
  (no_caller_record_mutation envC [recFixBug] [0] ["title"] (str "bug") []
      "substring" true "relevance" none (by decide)).2
    rfl (by decide) (by decide) 1 (by decide)
